import Mathlib

namespace LwTensor

/-- Shallow embedding of `struct Tensor` from src/lwtensor/tensor.h: a flat
component buffer, a shape array and a rank.  The scalar type `ttype`
(default `double`) is modelled by the exact rationals `ℚ` so that the
arithmetic identities of the source algorithms can be stated exactly. -/
@[ext]
structure Tensor where
  shape : List Nat
  components : List ℚ
  rank : Nat
deriving DecidableEq

/-- Index arithmetic shared by `set_value` and `get_value` in tensor.h
(lines 143-192): the two nested loops computing
`index = Σ_{i<rank} idx[i] * Π_{j<i} shape[j]`, written exactly as the
source's folds.  Out-of-range reads of the index or shape arrays (which the
C source leaves unchecked) are modelled by `getD` with default 0. -/
def offset (t : Tensor) (idx : List Nat) : Nat :=
  (List.range t.rank).foldl
    (fun index i =>
      index + idx.getD i 0 * (List.range i).foldl (fun s j => s * t.shape.getD j 0) 1) 0

/-- Embedding of `set_value` (tensor.h lines 143-161).  A write past the end
of the buffer (unchecked in C) is modelled as a no-op of `List.set`. -/
def set_value (t : Tensor) (value : ℚ) (idx : List Nat) : Tensor :=
  { t with components := t.components.set (offset t idx) value }

/-- Embedding of `get_value` (tensor.h lines 172-192); an out-of-range read
returns the default 0. -/
def get_value (t : Tensor) (idx : List Nat) : ℚ :=
  t.components.getD (offset t idx) 0

/-- Embedding of `create_tensor` (tensor.h lines 52-78): reads `rank` many
dimensions, multiplies them into `length` and allocates a zero-initialized
buffer of that many components. -/
def create_tensor (rank : Nat) (dims : List Nat) : Tensor :=
  let shape := (List.range rank).map (fun i => dims.getD i 0)
  let length := (List.range rank).foldl (fun l i => l * shape.getD i 0) 1
  { rank := rank, shape := shape, components := List.replicate length 0 }

/-- Embedding of `create_tensor_byptr` (tensor.h lines 89-104): like
`create_tensor` but the shape list is taken as given instead of copied. -/
def create_tensor_byptr (rank : Nat) (shape : List Nat) : Tensor :=
  let length := (List.range rank).foldl (fun l i => l * shape.getD i 0) 1
  { rank := rank, shape := shape, components := List.replicate length 0 }

/-- Embedding of `get_length` (tensor.h lines 200-207). -/
def get_length (t : Tensor) : Nat :=
  (List.range t.rank).foldl (fun l i => l * t.shape.getD i 0) 1

/-- Embedding of `sum` (tensor.h lines 218-234): copies the left operand's
shape, allocates a fresh tensor over it and fills every component with the
element-wise sum.  The write loop over `i < length` of a freshly
zero-allocated buffer of exactly `length` cells is rendered as a `map` over
`List.range length`. -/
def sum (lhs rhs : Tensor) : Tensor :=
  let shape := (List.range lhs.rank).map (fun i => lhs.shape.getD i 0)
  let tensor := create_tensor_byptr lhs.rank shape
  { tensor with
      components := (List.range tensor.components.length).map
        (fun i => lhs.components.getD i 0 + rhs.components.getD i 0) }

/-- Embedding of `sum_scalar` (tensor.h lines 243-259). -/
def sum_scalar (lhs : Tensor) (scalar : ℚ) : Tensor :=
  let shape := (List.range lhs.rank).map (fun i => lhs.shape.getD i 0)
  let tensor := create_tensor_byptr lhs.rank shape
  { tensor with
      components := (List.range tensor.components.length).map
        (fun i => lhs.components.getD i 0 + scalar) }

/-- Embedding of `subtract` (tensor.h lines 270-286). -/
def subtract (lhs rhs : Tensor) : Tensor :=
  let shape := (List.range lhs.rank).map (fun i => lhs.shape.getD i 0)
  let tensor := create_tensor_byptr lhs.rank shape
  { tensor with
      components := (List.range tensor.components.length).map
        (fun i => lhs.components.getD i 0 - rhs.components.getD i 0) }

/-- Embedding of `subtract_scalar` (tensor.h lines 295-311). -/
def subtract_scalar (lhs : Tensor) (scalar : ℚ) : Tensor :=
  let shape := (List.range lhs.rank).map (fun i => lhs.shape.getD i 0)
  let tensor := create_tensor_byptr lhs.rank shape
  { tensor with
      components := (List.range tensor.components.length).map
        (fun i => lhs.components.getD i 0 - scalar) }

/-- Embedding of `divide` (tensor.h lines 322-338).  Division by zero in `ℚ`
yields 0 where IEEE doubles would give an infinity or NaN; no claim in this
development evaluates a division at a zero divisor. -/
def divide (lhs rhs : Tensor) : Tensor :=
  let shape := (List.range lhs.rank).map (fun i => lhs.shape.getD i 0)
  let tensor := create_tensor_byptr lhs.rank shape
  { tensor with
      components := (List.range tensor.components.length).map
        (fun i => lhs.components.getD i 0 / rhs.components.getD i 0) }

/-- Embedding of `divide_scalar` (tensor.h lines 349-365). -/
def divide_scalar (lhs : Tensor) (scalar : ℚ) : Tensor :=
  let shape := (List.range lhs.rank).map (fun i => lhs.shape.getD i 0)
  let tensor := create_tensor_byptr lhs.rank shape
  { tensor with
      components := (List.range tensor.components.length).map
        (fun i => lhs.components.getD i 0 / scalar) }

/-- Embedding of `hadamard` (tensor.h lines 376-392). -/
def hadamard (lhs rhs : Tensor) : Tensor :=
  let shape := (List.range lhs.rank).map (fun i => lhs.shape.getD i 0)
  let tensor := create_tensor_byptr lhs.rank shape
  { tensor with
      components := (List.range tensor.components.length).map
        (fun i => lhs.components.getD i 0 * rhs.components.getD i 0) }

/-- Embedding of `product_scalar` (tensor.h lines 427-443). -/
def product_scalar (lhs : Tensor) (scalar : ℚ) : Tensor :=
  let shape := (List.range lhs.rank).map (fun i => lhs.shape.getD i 0)
  let tensor := create_tensor_byptr lhs.rank shape
  { tensor with
      components := (List.range tensor.components.length).map
        (fun i => lhs.components.getD i 0 * scalar) }

/-- Embedding of `create_vector` (vector header). -/
def create_vector (n : Nat) : Tensor :=
  create_tensor 1 [n]

/-- Embedding of `cross` (vector header, lines 103-112): the three
components are written directly into the freshly allocated buffer. -/
def cross (u v : Tensor) : Tensor :=
  let vector := create_vector (u.shape.getD 0 0)
  { vector with
      components := ((vector.components.set 0
          (u.components.getD 1 0 * v.components.getD 2 0 -
            u.components.getD 2 0 * v.components.getD 1 0)).set 1
          (u.components.getD 2 0 * v.components.getD 0 0 -
            u.components.getD 0 0 * v.components.getD 2 0)).set 2
          (u.components.getD 0 0 * v.components.getD 1 0 -
            u.components.getD 1 0 * v.components.getD 0 0) }

/-- Embedding of `create_matrix` (matrix.h lines 50-53). -/
def create_matrix (rows cols : Nat) : Tensor :=
  create_tensor 2 [rows, cols]

/-- Embedding of `create_indentity` (matrix.h lines 61-73, keeping the
source's spelling): a double loop over `c` and `r` that sets 1.0 at every
position where `c == r`. -/
def create_indentity (n : Nat) : Tensor :=
  (List.range n).foldl (fun matrix c =>
    (List.range n).foldl (fun matrix r =>
      if c = r then set_value matrix 1 [c, r] else matrix) matrix)
    (create_matrix n n)

/-- Embedding of `matmul` (matrix.h lines 82-98): the result is allocated
with shape `[rhs.shape[1], lhs.shape[0]]`; for every `r < lhs.shape[0]` and
`c < rhs.shape[1]` the accumulated value
`Σ_{k<lhs.shape[1]} get_value rhs [k,r] * get_value lhs [c,k]`
is stored at multi-index `[r, c]` of the result. -/
def matmul (lhs rhs : Tensor) : Tensor :=
  let result := create_matrix (rhs.shape.getD 1 0) (lhs.shape.getD 0 0)
  (List.range (lhs.shape.getD 0 0)).foldl (fun result r =>
    (List.range (rhs.shape.getD 1 0)).foldl (fun result c =>
      let mir := (List.range (lhs.shape.getD 1 0)).foldl
        (fun mir k => mir + get_value rhs [k, r] * get_value lhs [c, k]) 0
      set_value result mir [r, c]) result) result

/-- Embedding of `transpose` (matrix.h lines 135-147). -/
def transpose (matrix : Tensor) : Tensor :=
  let matrix_transposed := create_matrix (matrix.shape.getD 1 0) (matrix.shape.getD 0 0)
  (List.range (matrix.shape.getD 0 0)).foldl (fun acc r =>
    (List.range (matrix.shape.getD 1 0)).foldl (fun acc c =>
      set_value acc (get_value matrix [r, c]) [c, r]) acc) matrix_transposed

/-- Writes a list of values sequentially at indices 0, 1, 2, … of a buffer,
modelling the `index ++` copy loop of `minor` (matrix.h lines 161-171);
values past the end of the buffer are dropped, as `List.set` past the end
is a no-op. -/
def overwriteFront : List ℚ → List ℚ → List ℚ
  | [], ys => ys
  | _ :: _, [] => []
  | x :: xs, _ :: ys => x :: overwriteFront xs ys

/-- Sub-matrix construction inside `minor` (matrix.h lines 157-171): a
`(shape[1]-1) × (shape[1]-1)` matrix is allocated and every entry of the
input whose row differs from `row` and whose column differs from `col` is
copied, in the traversal order of the two nested loops, at consecutive flat
positions of the fresh buffer. -/
def minor_matrix (matrix : Tensor) (row col : Nat) : Tensor :=
  let sub := create_matrix (matrix.shape.getD 1 0 - 1) (matrix.shape.getD 1 0 - 1)
  let vals := (List.range (matrix.shape.getD 0 0)).flatMap (fun r =>
    (List.range (matrix.shape.getD 1 0)).filterMap (fun c =>
      if row ≠ r ∧ col ≠ c then some (get_value matrix [r, c]) else none))
  { sub with components := overwriteFront vals sub.components }

/-- Embedding of `determinant` (matrix.h lines 235-250): 0.0 for non-square
input, the closed form for `shape[1] == 2`, and otherwise the Laplace
expansion along column 0, where the cofactor computation of matrix.h lines
187-193 (`pow(-1.0, row+col) * minor(matrix, row, col)`) is spelled inline
because `minor` recursively calls `determinant`. -/
def determinant (matrix : Tensor) : ℚ :=
  if h1 : matrix.shape.getD 0 0 ≠ matrix.shape.getD 1 0 then 0
  else if h2 : matrix.shape.getD 1 0 = 2 then
    get_value matrix [0, 0] * get_value matrix [1, 1] -
      get_value matrix [1, 0] * get_value matrix [0, 1]
  else
    ((List.range (matrix.shape.getD 0 0)).attach.map (fun r =>
      get_value matrix [r.1, 0] *
        ((-1 : ℚ) ^ (r.1 + 0) * determinant (minor_matrix matrix r.1 0)))).sum
termination_by matrix.shape.getD 1 0
decreasing_by
  have hr := r.2
  simp only [List.mem_range] at hr
  show matrix.shape.getD 1 0 - 1 < matrix.shape.getD 1 0
  omega

/-- Embedding of `minor` (matrix.h lines 157-177): the determinant of the
copied sub-matrix. -/
def minor (matrix : Tensor) (row col : Nat) : ℚ :=
  determinant (minor_matrix matrix row col)

/-- Embedding of `cofactor` (matrix.h lines 187-193); the sign
`pow(-1.0, row + col)` is exact for the integer arguments involved and is
modelled as `(-1 : ℚ) ^ (row + col)`. -/
def cofactor (matrix : Tensor) (row col : Nat) : ℚ :=
  (-1 : ℚ) ^ (row + col) * minor matrix row col

/-- Embedding of `cofactor_matrix` (matrix.h lines 201-211). -/
def cofactor_matrix (matrix : Tensor) : Tensor :=
  let cof_matrix := create_matrix (matrix.shape.getD 0 0) (matrix.shape.getD 1 0)
  (List.range (matrix.shape.getD 0 0)).foldl (fun acc r =>
    (List.range (matrix.shape.getD 1 0)).foldl (fun acc c =>
      set_value acc (cofactor matrix r c) [r, c]) acc) cof_matrix

/-- Embedding of `adjugate_matrix` (matrix.h lines 219-225). -/
def adjugate_matrix (matrix : Tensor) : Tensor :=
  transpose (cofactor_matrix matrix)

/-- Embedding of `inverse` (matrix.h lines 260-269).  The source computes
`product_scalar(inv, 1/det)` but discards the returned tensor and returns
the unscaled adjugate `inv`; the discarded call is kept as an unused
binding. -/
def inverse (matrix : Tensor) : Tensor :=
  let det := determinant matrix
  let inv := adjugate_matrix matrix
  let inv_determinant := 1 / det
  let _discarded := product_scalar inv inv_determinant
  inv

/-- The sub-matrix of the claim's words for C5: the matrix formed by
deleting row `row` and column `col`, its kept entries copied in original
traversal order; stated from the specification text to be compared with the
source-derived `minor_matrix`. -/
def spec_deleted_submatrix (matrix : Tensor) (row col : Nat) : Tensor :=
  { rank := 2,
    shape := [matrix.shape.getD 1 0 - 1, matrix.shape.getD 1 0 - 1],
    components := (List.range (matrix.shape.getD 0 0)).flatMap (fun r =>
      (List.range (matrix.shape.getD 1 0)).filterMap (fun c =>
        if row ≠ r ∧ col ≠ c then some (get_value matrix [r, c]) else none)) }

/-- The accumulated value `mir` of matmul's innermost loop (matrix.h lines
89-91), named so that the write-loop characterization can refer to it. -/
def matmul_entry (lhs rhs : Tensor) (r c : Nat) : ℚ :=
  (List.range (lhs.shape.getD 1 0)).foldl
    (fun mir k => mir + get_value rhs [k, r] * get_value lhs [c, k]) 0

/-- Concrete 2×2 matrix with entries 1, 2, 3, 4 placed through the library's
own accessors; used by witnesses. -/
def exA : Tensor :=
  set_value (set_value (set_value (set_value (create_matrix 2 2) 1 [0, 0]) 2 [0, 1]) 3 [1, 0]) 4 [1, 1]

/-- Concrete second 2×2 operand for witnesses. -/
def exB : Tensor :=
  set_value (set_value (set_value (set_value (create_matrix 2 2) 5 [0, 0]) 6 [0, 1]) 7 [1, 0]) 8 [1, 1]

/-- Concrete 3×3 diagonal matrix with 2.0 on the diagonal; its determinant
under the source algorithm is 8 and its adjugate is diagonal with 4s. -/
def diag3 : Tensor :=
  set_value (set_value (set_value (create_matrix 3 3) 2 [0, 0]) 2 [1, 1]) 2 [2, 2]

/-- Concrete length-3 vector (1, 2, 3). -/
def exu : Tensor :=
  set_value (set_value (set_value (create_vector 3) 1 [0]) 2 [1]) 3 [2]

/-- Concrete length-3 vector (4, 5, 6). -/
def exv : Tensor :=
  set_value (set_value (set_value (create_vector 3) 4 [0]) 5 [1]) 6 [2]

/-- Shape of `create_matrix`. -/
theorem shape_create_matrix (a b : Nat) : (create_matrix a b).shape = [a, b] := rfl

/-- Rank of `create_matrix`. -/
theorem rank_create_matrix (a b : Nat) : (create_matrix a b).rank = 2 := rfl

/-- Component buffer of `create_matrix`: `a * b` zeroes. -/
theorem components_create_matrix (a b : Nat) :
    (create_matrix a b).components = List.replicate (a * b) 0 := by
  show List.replicate (1 * a * b) 0 = List.replicate (a * b) 0
  rw [Nat.one_mul]

/-- The offset loop specialized to rank 2: offset of `[a, b]` is
`a + b * shape[0]`. -/
theorem offset_two (t : Tensor) (a b : Nat) (h : t.rank = 2) :
    offset t [a, b] = a + b * t.shape.getD 0 0 := by
  simp [offset, h, List.range_succ]

/-- The offset loop specialized to rank 1. -/
theorem offset_one (t : Tensor) (a : Nat) (h : t.rank = 1) :
    offset t [a] = a := by
  simp [offset, h, List.range_succ]

/-- Offset depends only on the shape and the rank. -/
theorem offset_congr (t t' : Tensor) (idx : List Nat)
    (hs : t.shape = t'.shape) (hr : t.rank = t'.rank) :
    offset t idx = offset t' idx := by
  simp [offset, hs, hr]

/-- A running rational accumulation over `List.range` is the starting value
plus a `Finset.range` sum. -/
theorem foldl_add_rat (f : Nat → ℚ) :
    ∀ (n : Nat) (a : ℚ),
      (List.range n).foldl (fun s i => s + f i) a = a + ∑ i in Finset.range n, f i := by
  intro n
  induction n with
  | zero => intro a; simp
  | succ n ih =>
    intro a
    rw [List.range_succ, List.foldl_append, ih, Finset.sum_range_succ]
    simp [add_assoc]

/-- A running natural accumulation over `List.range` is the starting value
plus a `Finset.range` sum. -/
theorem foldl_add_nat (f : Nat → Nat) :
    ∀ (n : Nat) (a : Nat),
      (List.range n).foldl (fun s i => s + f i) a = a + ∑ i in Finset.range n, f i := by
  intro n
  induction n with
  | zero => intro a; simp
  | succ n ih =>
    intro a
    rw [List.range_succ, List.foldl_append, ih, Finset.sum_range_succ]
    simp [Nat.add_assoc]

/-- A running natural product over `List.range` is the starting value times
a `Finset.range` product. -/
theorem foldl_mul_nat (g : Nat → Nat) :
    ∀ (n : Nat) (a : Nat),
      (List.range n).foldl (fun s j => s * g j) a = a * ∏ j in Finset.range n, g j := by
  intro n
  induction n with
  | zero => intro a; simp
  | succ n ih =>
    intro a
    rw [List.range_succ, List.foldl_append, ih, Finset.prod_range_succ]
    simp [Nat.mul_assoc]

/-- A list sum over a mapped `List.range` is the corresponding
`Finset.range` sum. -/
theorem list_sum_range (f : Nat → ℚ) :
    ∀ n : Nat, ((List.range n).map f).sum = ∑ i in Finset.range n, f i := by
  intro n
  induction n with
  | zero => simp
  | succ n ih => rw [List.range_succ, List.map_append, List.sum_append, ih, Finset.sum_range_succ]; simp

/-- Sum over an attached range, as produced by the recursion in
`determinant`, equals the plain `Finset.range` sum. -/
theorem sum_attach_range (f : Nat → ℚ) (n : Nat) :
    ((List.range n).attach.map (fun r => f r.1)).sum = ∑ i in Finset.range n, f i := by
  rw [List.attach_map_val (List.range n) f, list_sum_range]

/-- Reading a list back entry by entry through `getD` over its index range
reproduces the list. -/
theorem map_getD_range (l : List Nat) :
    (List.range l.length).map (fun i => l.getD i 0) = l := by
  apply List.ext_getElem
  · simp
  · intro i h1 h2
    simp [List.getD_eq_getElem?_getD, List.getElem?_eq_getElem h2]

/-- Setting one cell leaves every other cell's `getD` unchanged. -/
theorem getD_set_ne (l : List ℚ) (i j : Nat) (v : ℚ) (h : i ≠ j) :
    (l.set i v).getD j 0 = l.getD j 0 := by
  simp [List.getD_eq_getElem?_getD, List.getElem?_set_ne h]

/-- Setting an in-range cell makes its `getD` the written value. -/
theorem getD_set_self (l : List ℚ) (i : Nat) (v : ℚ) (h : i < l.length) :
    (l.set i v).getD i 0 = v := by
  simp [List.getD_eq_getElem?_getD, List.getElem?_set_self h]

/-- Reading any position of an all-zero buffer gives zero. -/
theorem getD_replicate_zero (k p : Nat) : (List.replicate k (0 : ℚ)).getD p 0 = 0 := by
  rw [List.getD_eq_getElem?_getD, List.getElem?_replicate]
  split <;> rfl

/-- Folding a list of position-value writes preserves the buffer length. -/
theorem length_foldl_setKV :
    ∀ (ws : List (Nat × ℚ)) (l : List ℚ),
      (ws.foldl (fun acc w => acc.set w.1 w.2) l).length = l.length := by
  intro ws
  induction ws with
  | nil => intro l; rfl
  | cons w ws ih => intro l; rw [List.foldl_cons, ih, List.length_set]

/-- A position written by none of the folded writes keeps its value. -/
theorem getD_foldl_setKV_notmem :
    ∀ (ws : List (Nat × ℚ)) (l : List ℚ) (p : Nat),
      (∀ w ∈ ws, w.1 ≠ p) →
      (ws.foldl (fun acc w => acc.set w.1 w.2) l).getD p 0 = l.getD p 0 := by
  intro ws
  induction ws with
  | nil => intro l p _; rfl
  | cons w ws ih =>
    intro l p h
    rw [List.foldl_cons, ih _ _ (fun x hx => h x (List.mem_cons_of_mem _ hx)),
      getD_set_ne _ _ _ _ (h w (List.mem_cons_self _ _))]

/-- An in-range position written by the folded writes, all of whose writes
at that position carry the same value, ends holding that value. -/
theorem getD_foldl_setKV_mem :
    ∀ (ws : List (Nat × ℚ)) (l : List ℚ) (p : Nat) (v : ℚ),
      (p, v) ∈ ws → (∀ w ∈ ws, w.1 = p → w.2 = v) → p < l.length →
      (ws.foldl (fun acc w => acc.set w.1 w.2) l).getD p 0 = v := by
  intro ws
  induction ws with
  | nil => intro l p v h _ _; exact absurd h (List.not_mem_nil _)
  | cons w ws ih =>
    intro l p v hmem huniq hlen
    rw [List.foldl_cons]
    rcases List.mem_cons.mp hmem with heq | hmem2
    · by_cases h2 : ∀ w2 ∈ ws, w2.1 ≠ p
      · rw [getD_foldl_setKV_notmem ws _ p h2, ← heq, getD_set_self l p v hlen]
      · push_neg at h2
        obtain ⟨w2, hw2, hp2⟩ := h2
        have hv2 := huniq w2 (List.mem_cons_of_mem _ hw2) hp2
        have hmem3 : (p, v) ∈ ws := by rw [← hp2, ← hv2]; exact hw2
        exact ih _ p v hmem3 (fun x hx hxp => huniq x (List.mem_cons_of_mem _ hx) hxp)
          (by rw [List.length_set]; exact hlen)
    · exact ih _ p v hmem2 (fun x hx hxp => huniq x (List.mem_cons_of_mem _ hx) hxp)
        (by rw [List.length_set]; exact hlen)

/-- A fold of shape- and rank-preserving steps over a tensor is the same
tensor with its components folded by the corresponding buffer updates. -/
theorem foldl_tensor_spec {A : Type} (g : A → List ℚ → List ℚ) (step : Tensor → A → Tensor)
    (S : List Nat) (R : Nat)
    (hstep : ∀ (t : Tensor) (a : A), t.shape = S → t.rank = R →
      step t a = { t with components := g a t.components }) :
    ∀ (l : List A) (t : Tensor), t.shape = S → t.rank = R →
      (l.foldl step t).shape = S ∧ (l.foldl step t).rank = R ∧
        (l.foldl step t).components = l.foldl (fun comps a => g a comps) t.components := by
  intro l
  induction l with
  | nil => intro t h1 h2; exact ⟨h1, h2, rfl⟩
  | cons a l ih =>
    intro t h1 h2
    rw [List.foldl_cons, List.foldl_cons, hstep t a h1 h2]
    exact ih _ h1 h2

/-- Folding over a `flatMap` is the nested fold. -/
theorem foldl_flatMap_nested {A B C : Type} (f : A → List B) (g : C → B → C) :
    ∀ (l : List A) (init : C),
      (l.flatMap f).foldl g init = l.foldl (fun acc a => (f a).foldl g acc) init := by
  intro l
  induction l with
  | nil => intro init; rfl
  | cons a l ih => intro init; rw [List.flatMap_cons, List.foldl_append, List.foldl_cons, ih]

/-- A fold with a guarded step is the fold of the filtered list. -/
theorem foldl_ite_filter {A C : Type} (P : A → Prop) [DecidablePred P]
    (f : C → A → C) :
    ∀ (l : List A) (init : C),
      l.foldl (fun acc a => if P a then f acc a else acc) init
        = (l.filter (fun a => decide (P a))).foldl f init := by
  intro l
  induction l with
  | nil => intro init; rfl
  | cons a l ih =>
    intro init
    by_cases h : P a <;> simp [List.filter_cons, h, ih]

/-- Base-`n` decomposition of flat offsets is unique in the fast axis. -/
theorem key_unique {n a b a2 b2 : Nat} (ha : a < n) (ha2 : a2 < n)
    (h : a + b * n = a2 + b2 * n) : a = a2 ∧ b = b2 := by
  have hmod := congrArg (fun x => x % n) h
  simp only [Nat.add_mul_mod_self_right] at hmod
  rw [Nat.mod_eq_of_lt ha, Nat.mod_eq_of_lt ha2] at hmod
  refine ⟨hmod, ?_⟩
  have hdiv := congrArg (fun x => x / n) h
  have hn : 0 < n := Nat.lt_of_le_of_lt (Nat.zero_le a) ha
  simp only [Nat.add_mul_div_right _ _ hn] at hdiv
  rw [Nat.div_eq_of_lt ha, Nat.div_eq_of_lt ha2] at hdiv
  simpa using hdiv

/-- Flat offsets of valid rank-2 multi-indices stay inside the buffer. -/
theorem add_mul_lt {a n b m : Nat} (ha : a < n) (hb : b < m) :
    a + b * n < n * m := by
  have h1 : a + b * n < n + b * n := Nat.add_lt_add_right ha _
  have h2 : n + b * n = (b + 1) * n := by ring
  have h3 : (b + 1) * n ≤ m * n := Nat.mul_le_mul_right _ (Nat.succ_le_of_lt hb)
  have h4 : m * n = n * m := Nat.mul_comm m n
  omega

/-- Overwriting a buffer front-to-back with exactly as many values as it
holds replaces the buffer. -/
theorem overwriteFront_of_length_eq :
    ∀ (xs ys : List ℚ), xs.length = ys.length → overwriteFront xs ys = xs := by
  intro xs
  induction xs with
  | nil => intro ys h; cases ys with
    | nil => rfl
    | cons y ys => simp at h
  | cons x xs ih =>
    intro ys h
    cases ys with
    | nil => simp at h
    | cons y ys =>
      simp only [List.length_cons, Nat.add_right_cancel_iff] at h
      rw [overwriteFront, ih ys h]

/-- A `filterMap` whose function is a guarded `some` is a `map` over the
filtered list. -/
theorem filterMap_ite_eq_map_filter {A B : Type} (P : A → Prop) [DecidablePred P]
    (g : A → B) :
    ∀ l : List A,
      l.filterMap (fun a => if P a then some (g a) else none)
        = (l.filter (fun a => decide (P a))).map g := by
  intro l
  induction l with
  | nil => rfl
  | cons a l ih =>
    by_cases h : P a <;> simp [List.filterMap_cons, List.filter_cons, h, ih]

/-- Length of the range entries different from a fixed column. -/
theorem length_filter_ne (col : Nat) :
    ∀ n : Nat, ((List.range n).filter (fun c => decide (col ≠ c))).length
      = if col < n then n - 1 else n := by
  intro n
  induction n with
  | zero => simp
  | succ n ih =>
    rw [List.range_succ, List.filter_append, List.length_append, ih]
    by_cases h : col = n
    · subst h
      simp [Nat.lt_succ_self, Nat.lt_irrefl]
    · have : (([n] : List Nat).filter (fun c => decide (col ≠ c))).length = 1 := by simp [h]
      rw [this]
      by_cases h2 : col < n
      · simp [h2, Nat.lt_succ_of_lt h2]
        omega
      · have h3 : ¬ col < n + 1 := by omega
        simp [h2, h3]

/-- Characterization of the nested write loop used by `matmul`, `transpose`
and `cofactor_matrix`: a double loop of `set_value`s over a rank-2 tensor of
shape `[A, B]` is the fold of the corresponding flat list of
position-value writes over the component buffer. -/
theorem double_loop_spec (Rn Cn A B : Nat) (val : Nat → Nat → ℚ)
    (idx : Nat → Nat → List Nat) (key : Nat → Nat → Nat)
    (hkey : ∀ (t : Tensor) (r c : Nat), t.shape = [A, B] → t.rank = 2 →
      offset t (idx r c) = key r c) :
    ∀ (t0 : Tensor), t0.shape = [A, B] → t0.rank = 2 →
      ((List.range Rn).foldl (fun acc r => (List.range Cn).foldl
          (fun acc c => set_value acc (val r c) (idx r c)) acc) t0).shape = [A, B] ∧
      ((List.range Rn).foldl (fun acc r => (List.range Cn).foldl
          (fun acc c => set_value acc (val r c) (idx r c)) acc) t0).rank = 2 ∧
      ((List.range Rn).foldl (fun acc r => (List.range Cn).foldl
          (fun acc c => set_value acc (val r c) (idx r c)) acc) t0).components =
        ((List.range Rn).flatMap (fun r => (List.range Cn).map (fun c =>
            (key r c, val r c)))).foldl (fun acc w => acc.set w.1 w.2) t0.components := by
  intro t0 h1 h2
  have hstepI : ∀ (r : Nat) (t : Tensor) (c : Nat), t.shape = [A, B] → t.rank = 2 →
      set_value t (val r c) (idx r c)
        = { t with components := t.components.set (key r c) (val r c) } := by
    intro r t c ht1 ht2
    rw [set_value, hkey t r c ht1 ht2]
  have hstepO : ∀ (t : Tensor) (r : Nat), t.shape = [A, B] → t.rank = 2 →
      (List.range Cn).foldl (fun acc c => set_value acc (val r c) (idx r c)) t
        = { t with
              components :=
                (fun comps => (List.range Cn).foldl
                  (fun comps c => comps.set (key r c) (val r c)) comps) t.components } := by
    intro t r ht1 ht2
    obtain ⟨hs, hr, hc⟩ := foldl_tensor_spec
      (fun c comps => comps.set (key r c) (val r c))
      (fun acc c => set_value acc (val r c) (idx r c))
      [A, B] 2 (hstepI r) (List.range Cn) t ht1 ht2
    apply Tensor.ext
    · exact hs.trans ht1.symm
    · exact hc
    · exact hr.trans ht2.symm
  obtain ⟨hs, hr, hc⟩ := foldl_tensor_spec
    (fun r comps => (List.range Cn).foldl
      (fun comps c => comps.set (key r c) (val r c)) comps)
    (fun acc r => (List.range Cn).foldl
      (fun acc c => set_value acc (val r c) (idx r c)) acc)
    [A, B] 2 hstepO (List.range Rn) t0 h1 h2
  refine ⟨hs, hr, ?_⟩
  rw [hc, foldl_flatMap_nested]
  simp only [List.foldl_map]

/-- Write-loop characterization of `matmul`. -/
theorem matmul_spec (lhs rhs : Tensor) :
    (matmul lhs rhs).shape = [rhs.shape.getD 1 0, lhs.shape.getD 0 0] ∧
    (matmul lhs rhs).rank = 2 ∧
    (matmul lhs rhs).components =
      ((List.range (lhs.shape.getD 0 0)).flatMap (fun r =>
          (List.range (rhs.shape.getD 1 0)).map (fun c =>
            (r + c * rhs.shape.getD 1 0, matmul_entry lhs rhs r c)))).foldl
        (fun acc w => acc.set w.1 w.2)
        (List.replicate (rhs.shape.getD 1 0 * lhs.shape.getD 0 0) 0) := by
  have h := double_loop_spec (lhs.shape.getD 0 0) (rhs.shape.getD 1 0)
    (rhs.shape.getD 1 0) (lhs.shape.getD 0 0)
    (fun r c => matmul_entry lhs rhs r c) (fun r c => [r, c])
    (fun r c => r + c * rhs.shape.getD 1 0)
    (by
      intro t r c ht1 ht2
      rw [offset_two t r c ht2, ht1]
      rfl)
    (create_matrix (rhs.shape.getD 1 0) (lhs.shape.getD 0 0)) rfl rfl
  obtain ⟨hs, hr, hc⟩ := h
  refine ⟨hs, hr, ?_⟩
  rw [← components_create_matrix (rhs.shape.getD 1 0) (lhs.shape.getD 0 0)]
  exact hc

/-- Write-loop characterization of `transpose`. -/
theorem transpose_spec (M : Tensor) :
    (transpose M).shape = [M.shape.getD 1 0, M.shape.getD 0 0] ∧
    (transpose M).rank = 2 ∧
    (transpose M).components =
      ((List.range (M.shape.getD 0 0)).flatMap (fun r =>
          (List.range (M.shape.getD 1 0)).map (fun c =>
            (c + r * M.shape.getD 1 0, get_value M [r, c])))).foldl
        (fun acc w => acc.set w.1 w.2)
        (List.replicate (M.shape.getD 1 0 * M.shape.getD 0 0) 0) := by
  have h := double_loop_spec (M.shape.getD 0 0) (M.shape.getD 1 0)
    (M.shape.getD 1 0) (M.shape.getD 0 0)
    (fun r c => get_value M [r, c]) (fun r c => [c, r])
    (fun r c => c + r * M.shape.getD 1 0)
    (by
      intro t r c ht1 ht2
      rw [offset_two t c r ht2, ht1]
      rfl)
    (create_matrix (M.shape.getD 1 0) (M.shape.getD 0 0)) rfl rfl
  obtain ⟨hs, hr, hc⟩ := h
  refine ⟨hs, hr, ?_⟩
  rw [← components_create_matrix (M.shape.getD 1 0) (M.shape.getD 0 0)]
  exact hc

/-- Write-loop characterization of `cofactor_matrix`. -/
theorem cofactor_matrix_spec (M : Tensor) :
    (cofactor_matrix M).shape = [M.shape.getD 0 0, M.shape.getD 1 0] ∧
    (cofactor_matrix M).rank = 2 ∧
    (cofactor_matrix M).components =
      ((List.range (M.shape.getD 0 0)).flatMap (fun r =>
          (List.range (M.shape.getD 1 0)).map (fun c =>
            (r + c * M.shape.getD 0 0, cofactor M r c)))).foldl
        (fun acc w => acc.set w.1 w.2)
        (List.replicate (M.shape.getD 0 0 * M.shape.getD 1 0) 0) := by
  have h := double_loop_spec (M.shape.getD 0 0) (M.shape.getD 1 0)
    (M.shape.getD 0 0) (M.shape.getD 1 0)
    (fun r c => cofactor M r c) (fun r c => [r, c])
    (fun r c => r + c * M.shape.getD 0 0)
    (by
      intro t r c ht1 ht2
      rw [offset_two t r c ht2, ht1]
      rfl)
    (create_matrix (M.shape.getD 0 0) (M.shape.getD 1 0)) rfl rfl
  obtain ⟨hs, hr, hc⟩ := h
  refine ⟨hs, hr, ?_⟩
  rw [← components_create_matrix (M.shape.getD 0 0) (M.shape.getD 1 0)]
  exact hc

/-- Inner matmul loop as a `Finset.range` sum. -/
theorem matmul_entry_eq_sum (lhs rhs : Tensor) (r c : Nat) :
    matmul_entry lhs rhs r c =
      ∑ k in Finset.range (lhs.shape.getD 1 0), get_value rhs [k, r] * get_value lhs [c, k] := by
  rw [matmul_entry, foldl_add_rat]
  simp

/-- Reading a valid entry of a matmul result whose two outer dimensions
agree (the only case in which the C loops stay inside their buffers)
returns the accumulated inner-loop value written there. -/
theorem matmul_get (lhs rhs : Tensor) (q : Nat)
    (hm : lhs.shape.getD 0 0 = q) (hp : rhs.shape.getD 1 0 = q)
    (a b : Nat) (ha : a < q) (hb : b < q) :
    get_value (matmul lhs rhs) [a, b] = matmul_entry lhs rhs a b := by
  obtain ⟨hs, hr, hc⟩ := matmul_spec lhs rhs
  rw [get_value, offset_two _ _ _ hr, hs, hc]
  simp only [List.getD_cons_zero]
  apply getD_foldl_setKV_mem
  · simp only [List.mem_flatMap, List.mem_map, List.mem_range]
    exact ⟨a, by omega, b, by omega, rfl⟩
  · intro w hw hkey
    simp only [List.mem_flatMap, List.mem_map, List.mem_range] at hw
    obtain ⟨r, hrm, c, hcp, rfl⟩ := hw
    obtain ⟨hra, hcb⟩ := key_unique (n := rhs.shape.getD 1 0) (by omega) (by omega) hkey
    rw [hra, hcb]
  · rw [List.length_replicate]
    exact add_mul_lt (by omega) (by omega)

/-- Reading a valid entry of a transpose result gives the entry of the
input with the two indices swapped. -/
theorem transpose_get (M : Tensor) (a b : Nat)
    (ha : a < M.shape.getD 1 0) (hb : b < M.shape.getD 0 0) :
    get_value (transpose M) [a, b] = get_value M [b, a] := by
  obtain ⟨hs, hr, hc⟩ := transpose_spec M
  rw [get_value, offset_two _ _ _ hr, hs, hc]
  simp only [List.getD_cons_zero]
  apply getD_foldl_setKV_mem
  · simp only [List.mem_flatMap, List.mem_map, List.mem_range]
    exact ⟨b, hb, a, ha, rfl⟩
  · intro w hw hkey
    simp only [List.mem_flatMap, List.mem_map, List.mem_range] at hw
    obtain ⟨r, hrm, c, hcp, rfl⟩ := hw
    obtain ⟨hca, hrb⟩ := key_unique (n := M.shape.getD 1 0) hcp ha hkey
    rw [hca, hrb]
  · rw [List.length_replicate]
    exact add_mul_lt ha hb

/-- Reading a valid entry of the cofactor matrix gives the cofactor. -/
theorem cofactor_matrix_get (M : Tensor) (a b : Nat)
    (ha : a < M.shape.getD 0 0) (hb : b < M.shape.getD 1 0) :
    get_value (cofactor_matrix M) [a, b] = cofactor M a b := by
  obtain ⟨hs, hr, hc⟩ := cofactor_matrix_spec M
  rw [get_value, offset_two _ _ _ hr, hs, hc]
  simp only [List.getD_cons_zero]
  apply getD_foldl_setKV_mem
  · simp only [List.mem_flatMap, List.mem_map, List.mem_range]
    exact ⟨a, ha, b, hb, rfl⟩
  · intro w hw hkey
    simp only [List.mem_flatMap, List.mem_map, List.mem_range] at hw
    obtain ⟨r, hrm, c, hcp, rfl⟩ := hw
    obtain ⟨hra, hcb⟩ := key_unique (n := M.shape.getD 0 0) hrm ha hkey
    rw [hra, hcb]
  · rw [List.length_replicate]
    exact add_mul_lt ha hb

/-- Filtering a range for equality with a fixed value keeps at most that
value. -/
theorem filter_eq_range (c : Nat) :
    ∀ n : Nat, (List.range n).filter (fun r => decide (c = r))
      = if c < n then [c] else [] := by
  intro n
  induction n with
  | zero => simp
  | succ n ih =>
    rw [List.range_succ, List.filter_append, ih]
    by_cases h : c = n
    · subst h
      simp [Nat.lt_irrefl, Nat.lt_succ_self]
    · by_cases h2 : c < n
      · simp [h2, Nat.lt_succ_of_lt h2, h]
      · have h3 : ¬ c < n + 1 := by omega
        simp [h2, h3, h]

/-- Write-loop characterization of `create_indentity`: only the diagonal
positions are written, each once, with 1. -/
theorem indentity_spec (n : Nat) :
    (create_indentity n).shape = [n, n] ∧
    (create_indentity n).rank = 2 ∧
    (create_indentity n).components =
      ((List.range n).map (fun c => (c + c * n, (1 : ℚ)))).foldl
        (fun acc w => acc.set w.1 w.2) (List.replicate (n * n) 0) := by
  have hstepI : ∀ (c : Nat) (t : Tensor) (r : Nat), t.shape = [n, n] → t.rank = 2 →
      (if c = r then set_value t 1 [c, r] else t)
        = { t with
              components := if c = r then t.components.set (c + r * n) 1 else t.components } := by
    intro c t r ht1 ht2
    by_cases h : c = r
    · rw [if_pos h, if_pos h, set_value, offset_two t c r ht2, ht1]
      rfl
    · rw [if_neg h, if_neg h]
  have hstepO : ∀ (t : Tensor) (c : Nat), t.shape = [n, n] → t.rank = 2 →
      (List.range n).foldl (fun acc r => if c = r then set_value acc 1 [c, r] else acc) t
        = { t with
              components :=
                (fun comps => (List.range n).foldl
                  (fun comps r => if c = r then comps.set (c + r * n) 1 else comps) comps)
                  t.components } := by
    intro t c ht1 ht2
    obtain ⟨hs, hr, hc⟩ := foldl_tensor_spec
      (fun r comps => if c = r then comps.set (c + r * n) 1 else comps)
      (fun acc r => if c = r then set_value acc 1 [c, r] else acc)
      [n, n] 2 (hstepI c) (List.range n) t ht1 ht2
    apply Tensor.ext
    · exact hs.trans ht1.symm
    · exact hc
    · exact hr.trans ht2.symm
  obtain ⟨hs, hr, hc⟩ := foldl_tensor_spec
    (fun c comps => (List.range n).foldl
      (fun comps r => if c = r then comps.set (c + r * n) 1 else comps) comps)
    (fun acc c => (List.range n).foldl
      (fun acc r => if c = r then set_value acc 1 [c, r] else acc) acc)
    [n, n] 2 hstepO (List.range n) (create_matrix n n) rfl rfl
  refine ⟨hs, hr, ?_⟩
  have hc2 : (create_indentity n).components =
      (List.range n).foldl (fun comps c => (List.range n).foldl
          (fun comps r => if c = r then comps.set (c + r * n) 1 else comps) comps)
        (List.replicate (n * n) 0) := by
    rw [← components_create_matrix n n]
    exact hc
  rw [hc2]
  have hinner : ∀ comps : List ℚ, ∀ c < n,
      (List.range n).foldl (fun comps r => if c = r then comps.set (c + r * n) 1 else comps) comps
        = comps.set (c + c * n) 1 := by
    intro comps c hcn
    have hf1 := foldl_ite_filter (fun r => c = r) (fun comps r => comps.set (c + r * n) 1)
      (List.range n) comps
    have hf2 : ((List.range n).filter (fun r => decide (c = r))).foldl
        (fun comps r => comps.set (c + r * n) 1) comps = comps.set (c + c * n) 1 := by
      rw [filter_eq_range c n, if_pos hcn]
      rfl
    exact hf1.trans hf2
  have houter : ∀ comps : List ℚ,
      (List.range n).foldl (fun comps c =>
          (List.range n).foldl (fun comps r => if c = r then comps.set (c + r * n) 1 else comps)
            comps) comps
        = ((List.range n).map (fun c => (c + c * n, (1 : ℚ)))).foldl
            (fun acc w => acc.set w.1 w.2) comps := by
    intro comps
    rw [List.foldl_map]
    apply List.foldl_ext
    intro acc c hcmem
    exact hinner acc c (List.mem_range.mp hcmem)
  exact houter _

/-- Reading a valid entry of `create_indentity n` gives 1 on the diagonal
and 0 elsewhere. -/
theorem ident_get (n a b : Nat) (ha : a < n) (hb : b < n) :
    get_value (create_indentity n) [a, b] = if a = b then 1 else 0 := by
  obtain ⟨hs, hr, hc⟩ := indentity_spec n
  rw [get_value, offset_two _ _ _ hr, hs, hc]
  simp only [List.getD_cons_zero]
  by_cases hab : a = b
  · subst hab
    rw [if_pos rfl]
    apply getD_foldl_setKV_mem
    · simp only [List.mem_map, List.mem_range]
      exact ⟨a, ha, rfl⟩
    · intro w hw _
      simp only [List.mem_map, List.mem_range] at hw
      obtain ⟨c, _, rfl⟩ := hw
      rfl
    · rw [List.length_replicate]
      exact add_mul_lt ha ha
  · rw [if_neg hab, getD_foldl_setKV_notmem _ _ _ ?_, getD_replicate_zero]
    intro w hw
    simp only [List.mem_map, List.mem_range] at hw
    obtain ⟨c, hcn, rfl⟩ := hw
    intro hkey
    obtain ⟨h1, h2⟩ := key_unique (n := n) hcn ha hkey
    exact hab (by omega)

/-- Non-square input makes `determinant` return the 0.0 sentinel through
its first branch. -/
theorem det_nonsquare (M : Tensor) (h : M.shape.getD 0 0 ≠ M.shape.getD 1 0) :
    determinant M = 0 := by
  unfold determinant
  rw [dif_pos h]

/-- The `shape[1] == 2` branch of `determinant`: the closed 2×2 form. -/
theorem det_two (M : Tensor) (h0 : M.shape.getD 0 0 = 2) (h1 : M.shape.getD 1 0 = 2) :
    determinant M = get_value M [0, 0] * get_value M [1, 1] -
      get_value M [1, 0] * get_value M [0, 1] := by
  unfold determinant
  rw [dif_neg (by rw [h0, h1]; exact fun h => h rfl), dif_pos h1]

/-- The recursive branch of `determinant` for square shapes other than 2:
Laplace expansion along column 0 with the cofactor spelled out. -/
theorem det_expand (M : Tensor) (n : Nat) (h0 : M.shape.getD 0 0 = n)
    (h1 : M.shape.getD 1 0 = n) (hn : n ≠ 2) :
    determinant M = ∑ r in Finset.range n,
      get_value M [r, 0] * ((-1 : ℚ) ^ r * determinant (minor_matrix M r 0)) := by
  conv_lhs => unfold determinant
  rw [dif_neg (by rw [h0, h1]; exact fun h => h rfl), dif_neg (by rw [h1]; exact hn)]
  rw [sum_attach_range
    (fun x => get_value M [x, 0] * ((-1 : ℚ) ^ (x + 0) * determinant (minor_matrix M x 0)))
    (M.shape.getD 0 0), h0]
  simp only [Nat.add_zero]

/-- The recursive branch of `determinant`, phrased through `cofactor`. -/
theorem det_laplace (M : Tensor) (n : Nat) (h0 : M.shape.getD 0 0 = n)
    (h1 : M.shape.getD 1 0 = n) (hn : n ≠ 2) :
    determinant M = ∑ r in Finset.range n, get_value M [r, 0] * cofactor M r 0 := by
  rw [det_expand M n h0 h1 hn]
  apply Finset.sum_congr rfl
  intro r _
  rw [cofactor, minor, Nat.add_zero]

/-- Sum of a constant over the non-excluded entries of a range. -/
theorem sum_ite_ne (row k : Nat) :
    ∀ n : Nat, ((List.range n).map (fun r => if row = r then 0 else k)).sum
      = if row < n then (n - 1) * k else n * k := by
  intro n
  induction n with
  | zero => simp
  | succ n ih =>
    rw [List.range_succ, List.map_append, List.sum_append, ih]
    by_cases h : row = n
    · subst h
      have h2 : ¬ row < row := Nat.lt_irrefl row
      simp [h2, Nat.lt_succ_self]
    · by_cases h2 : row < n
      · have h3 : row < n + 1 := Nat.lt_succ_of_lt h2
        have h4 : 1 ≤ n := Nat.lt_of_le_of_lt (Nat.zero_le row) h2
        simp only [h2, h3, if_pos, if_true, List.map_cons, List.map_nil, List.sum_cons,
          List.sum_nil, if_neg h]
        have h5 : n - 1 + 1 = n := Nat.succ_pred_eq_of_pos h4
        calc (n - 1) * k + (k + 0) = (n - 1 + 1) * k := by ring
          _ = n * k := by rw [h5]
          _ = (n + 1 - 1) * k := rfl
      · have h3 : ¬ row < n + 1 := by omega
        simp only [h2, h3, if_false, List.map_cons, List.map_nil, List.sum_cons,
          List.sum_nil, if_neg h]
        ring
    
/-- Length of the copied entry list inside `minor`: an `n × n` matrix with
one row and one column deleted leaves `(n-1) * (n-1)` entries. -/
theorem vals_length (M : Tensor) (n row col : Nat)
    (h0 : M.shape.getD 0 0 = n) (h1 : M.shape.getD 1 0 = n)
    (hrow : row < n) (hcol : col < n) :
    ((List.range (M.shape.getD 0 0)).flatMap (fun r =>
      (List.range (M.shape.getD 1 0)).filterMap (fun c =>
        if row ≠ r ∧ col ≠ c then some (get_value M [r, c]) else none))).length
      = (n - 1) * (n - 1) := by
  rw [h0, h1, List.flatMap_def, List.length_flatten, List.map_map]
  have hfun : ∀ r : Nat,
      (List.length ∘ fun r => (List.range n).filterMap (fun c =>
          if row ≠ r ∧ col ≠ c then some (get_value M [r, c]) else none)) r
        = (fun r => if row = r then 0 else n - 1) r := by
    intro r
    simp only [Function.comp]
    by_cases h : row = r
    · rw [if_pos h]
      have hnil : (List.range n).filterMap (fun c =>
          if row ≠ r ∧ col ≠ c then some (get_value M [r, c]) else none) = [] := by
        apply List.filterMap_eq_nil_iff.mpr
        intro c _
        simp [h]
      rw [hnil]
      rfl
    · rw [if_neg h]
      have hcong : (fun c => if row ≠ r ∧ col ≠ c then some (get_value M [r, c]) else none)
          = (fun c => if col ≠ c then some (get_value M [r, c]) else none) := by
        funext c
        simp [h]
      rw [hcong, filterMap_ite_eq_map_filter (fun c => col ≠ c) (fun c => get_value M [r, c]),
        List.length_map, length_filter_ne, if_pos hcol]
  rw [funext hfun, sum_ite_ne, if_pos hrow]

/-- The sub-matrix that `minor` copies coincides, entry list and shape,
with the deleted-row-and-column sub-matrix described by the claim. -/
theorem minor_matrix_eq_spec (M : Tensor) (n row col : Nat)
    (h0 : M.shape.getD 0 0 = n) (h1 : M.shape.getD 1 0 = n)
    (hrow : row < n) (hcol : col < n) :
    minor_matrix M row col = spec_deleted_submatrix M row col := by
  apply Tensor.ext
  · rfl
  · show overwriteFront ((List.range (M.shape.getD 0 0)).flatMap (fun r =>
        (List.range (M.shape.getD 1 0)).filterMap (fun c =>
          if row ≠ r ∧ col ≠ c then some (get_value M [r, c]) else none)))
        ((create_matrix (M.shape.getD 1 0 - 1) (M.shape.getD 1 0 - 1)).components)
      = (List.range (M.shape.getD 0 0)).flatMap (fun r =>
        (List.range (M.shape.getD 1 0)).filterMap (fun c =>
          if row ≠ r ∧ col ≠ c then some (get_value M [r, c]) else none))
    rw [components_create_matrix]
    apply overwriteFront_of_length_eq
    rw [List.length_replicate, vals_length M n row col h0 h1 hrow hcol, h1]
  · rfl

/-- Determinant of the empty 0×0 matrix produced at the bottom of the
recursion: the loop over zero rows returns the accumulator 0.0. -/
theorem det_empty : determinant (create_matrix 0 0) = 0 := by
  rw [det_expand (create_matrix 0 0) 0 rfl rfl (by decide), Finset.sum_range_zero]

/-- The shape copied by the element-wise operations reproduces the operand
shape whenever the operand's rank field matches its shape length. -/
theorem elementwise_shape (lhs : Tensor) (hwf : lhs.rank = lhs.shape.length) :
    (List.range lhs.rank).map (fun i => lhs.shape.getD i 0) = lhs.shape := by
  rw [hwf]
  exact map_getD_range lhs.shape

/-- Buffer length of `create_tensor_byptr` is its length fold. -/
theorem byptr_length (rank : Nat) (shape : List Nat) :
    (create_tensor_byptr rank shape).components.length =
      (List.range rank).foldl (fun l i => l * shape.getD i 0) 1 := by
  show (List.replicate _ (0 : ℚ)).length = _
  rw [List.length_replicate]

/-- A list product over a mapped `List.range` is the corresponding
`Finset.range` product. -/
theorem list_prod_range (g : Nat → Nat) :
    ∀ n : Nat, ((List.range n).map g).prod = ∏ j in Finset.range n, g j := by
  intro n
  induction n with
  | zero => simp
  | succ n ih =>
    rw [List.range_succ, List.map_append, List.prod_append, ih, Finset.prod_range_succ]
    simp

/-- The indexed product of a shape list is its plain product. -/
theorem prod_range_getD (l : List Nat) :
    ∏ j in Finset.range l.length, l.getD j 0 = l.prod := by
  conv_rhs => rw [← map_getD_range l]
  rw [list_prod_range]

/-- Component count produced by the shared element-wise skeleton. -/
theorem elementwise_length (lhs : Tensor) (f : Nat → ℚ) (hwf : lhs.rank = lhs.shape.length) :
    ((List.range (create_tensor_byptr lhs.rank
        ((List.range lhs.rank).map (fun i => lhs.shape.getD i 0))).components.length).map f).length
      = lhs.shape.prod := by
  rw [List.length_map, List.length_range, byptr_length, elementwise_shape lhs hwf,
    foldl_mul_nat (fun i => lhs.shape.getD i 0), Nat.one_mul, hwf, prod_range_getD]

/-- C3: for every tensor and multi-index, `get_value` and `set_value`
address the component buffer at flat offset
`Σ_{k<rank} idx[k] * Π_{j<k} shape[j]`, so axis 0 has stride 1, axis 1 has
stride `shape[0]`, axis 2 has stride `shape[0]*shape[1]`, and so on: axis 0
varies fastest, not last-axis-fastest row-major. -/
theorem C3_flat_addressing (t : Tensor) (idx : List Nat) (value : ℚ) :
    offset t idx = (∑ k in Finset.range t.rank,
        idx.getD k 0 * ∏ j in Finset.range k, t.shape.getD j 0) ∧
    get_value t idx = t.components.getD
        (∑ k in Finset.range t.rank, idx.getD k 0 * ∏ j in Finset.range k, t.shape.getD j 0) 0 ∧
    (set_value t value idx).components = t.components.set
        (∑ k in Finset.range t.rank, idx.getD k 0 * ∏ j in Finset.range k, t.shape.getD j 0) value ∧
    (set_value t value idx).shape = t.shape ∧ (set_value t value idx).rank = t.rank := by
  have hoff : offset t idx = ∑ k in Finset.range t.rank,
      idx.getD k 0 * ∏ j in Finset.range k, t.shape.getD j 0 := by
    rw [offset, foldl_add_nat
      (fun i => idx.getD i 0 * (List.range i).foldl (fun s j => s * t.shape.getD j 0) 1)
      t.rank 0, Nat.zero_add]
    apply Finset.sum_congr rfl
    intro k _
    rw [foldl_mul_nat (fun j => t.shape.getD j 0) k 1, Nat.one_mul]
  refine ⟨hoff, ?_, ?_, rfl, rfl⟩
  · rw [get_value, hoff]
  · rw [set_value, hoff]

/-- C6: a non-square shape makes `determinant` return the sentinel 0.0,
which is the same value a legitimately singular square matrix produces. -/
theorem C6_nonsquare_sentinel (M : Tensor)
    (h : M.shape.getD 0 0 ≠ M.shape.getD 1 0) :
    determinant M = 0 ∧ determinant (set_value (create_matrix 2 2) 5 [0, 0]) = 0 := by
  refine ⟨det_nonsquare M h, ?_⟩
  rw [det_two (set_value (create_matrix 2 2) 5 [0, 0]) rfl rfl]
  have e00 : get_value (set_value (create_matrix 2 2) 5 [0, 0]) [0, 0] = 5 := rfl
  have e11 : get_value (set_value (create_matrix 2 2) 5 [0, 0]) [1, 1] = 0 := rfl
  have e10 : get_value (set_value (create_matrix 2 2) 5 [0, 0]) [1, 0] = 0 := rfl
  have e01 : get_value (set_value (create_matrix 2 2) 5 [0, 0]) [0, 1] = 0 := rfl
  rw [e00, e11, e10, e01]
  norm_num

/-- Witness for C6 at the concrete non-square 2×3 zero matrix. -/
theorem C6_witness :
    (create_matrix 2 3).shape.getD 0 0 ≠ (create_matrix 2 3).shape.getD 1 0 ∧
    (determinant (create_matrix 2 3) = 0 ∧
      determinant (set_value (create_matrix 2 2) 5 [0, 0]) = 0) :=
  ⟨by decide, C6_nonsquare_sentinel (create_matrix 2 3) (by decide)⟩

/-- C9: `determinant` of any 1×1 matrix is 0.0 regardless of its entry,
and the determinant of a 0×0 matrix is also 0.0, because the recursion has
no size-1 base case and expands through an empty 0×0 sub-matrix. -/
theorem C9_det_one_by_one (x : ℚ) :
    determinant (set_value (create_matrix 1 1) x [0, 0]) = 0 ∧
      determinant (create_matrix 0 0) = 0 := by
  refine ⟨?_, det_empty⟩
  rw [det_expand (set_value (create_matrix 1 1) x [0, 0]) 1 rfl rfl (by decide),
    Finset.sum_range_succ, Finset.sum_range_zero]
  have hmm : minor_matrix (set_value (create_matrix 1 1) x [0, 0]) 0 0
      = create_matrix 0 0 := rfl
  rw [hmm, det_empty]
  ring

/-- C4 failing input: the code evaluates `determinant (create_indentity 1)`
to 0.0, not the 1.0 the claim requires, because the 1×1 case recurses into
an empty sub-matrix instead of returning the diagonal entry. -/
theorem C4_det_identity_one_is_zero : determinant (create_indentity 1) = 0 := by
  rw [det_expand (create_indentity 1) 1 rfl rfl (by decide),
    Finset.sum_range_succ, Finset.sum_range_zero]
  have hmm : minor_matrix (create_indentity 1) 0 0 = create_matrix 0 0 := by decide
  rw [hmm, det_empty]
  ring

/-- C5: the determinant algorithm is the 2×2 closed form on size-2 square
shapes; on larger square shapes it is the Laplace expansion along column 0
where `cofactor(r,c) = (-1)^(r+c) * minor(r,c)` and `minor` is the
determinant of the sub-matrix obtained by deleting the excluded row and
column, its entries copied in original traversal order. -/
theorem C5_determinant_algorithm :
    (∀ M : Tensor, M.shape.getD 0 0 = 2 → M.shape.getD 1 0 = 2 →
        determinant M = get_value M [0, 0] * get_value M [1, 1] -
          get_value M [1, 0] * get_value M [0, 1]) ∧
    (∀ (M : Tensor) (n : Nat), M.shape.getD 0 0 = n → M.shape.getD 1 0 = n → 2 < n →
        determinant M = ∑ r in Finset.range n, get_value M [r, 0] * cofactor M r 0) ∧
    (∀ (M : Tensor) (row col : Nat),
        cofactor M row col = (-1 : ℚ) ^ (row + col) * minor M row col) ∧
    (∀ (M : Tensor) (n row col : Nat), M.shape.getD 0 0 = n → M.shape.getD 1 0 = n →
        row < n → col < n →
        minor M row col = determinant (spec_deleted_submatrix M row col)) := by
  refine ⟨det_two, ?_, ?_, ?_⟩
  · intro M n h0 h1 hn
    exact det_laplace M n h0 h1 (by omega)
  · intro M row col
    rfl
  · intro M n row col h0 h1 hrow hcol
    rw [minor, minor_matrix_eq_spec M n row col h0 h1 hrow hcol]

/-- Witness for C5 at a concrete 2×2 and a concrete 3×3 matrix. -/
theorem C5_witness :
    (exA.shape.getD 0 0 = 2 ∧ exA.shape.getD 1 0 = 2 ∧
      determinant exA = get_value exA [0, 0] * get_value exA [1, 1] -
        get_value exA [1, 0] * get_value exA [0, 1]) ∧
    (diag3.shape.getD 0 0 = 3 ∧ diag3.shape.getD 1 0 = 3 ∧ 2 < 3 ∧
      determinant diag3 = ∑ r in Finset.range 3, get_value diag3 [r, 0] * cofactor diag3 r 0) ∧
    cofactor diag3 1 2 = (-1 : ℚ) ^ (1 + 2) * minor diag3 1 2 ∧
    (1 < 3 ∧ 2 < 3 ∧
      minor diag3 1 2 = determinant (spec_deleted_submatrix diag3 1 2)) :=
  ⟨⟨rfl, rfl, C5_determinant_algorithm.1 exA rfl rfl⟩,
    ⟨rfl, rfl, by decide, C5_determinant_algorithm.2.1 diag3 3 rfl rfl (by decide)⟩,
    C5_determinant_algorithm.2.2.1 diag3 1 2,
    ⟨by decide, by decide,
      C5_determinant_algorithm.2.2.2 diag3 3 1 2 rfl rfl (by decide) (by decide)⟩⟩

/-- C1 failing input: on the 3×3 diagonal matrix with 2.0 on the diagonal
the source's `inverse` returns the unscaled adjugate (entry 4 at position
(0,0)), while the claimed contract adjugate/determinant demands
4 / 8 = 1/2 there — the `product_scalar` result is computed and discarded. -/
theorem C1_inverse_returns_unscaled_adjugate :
    get_value (inverse diag3) [0, 0] = 4 ∧
    determinant diag3 = 8 ∧
    get_value (adjugate_matrix diag3) [0, 0] / determinant diag3 = 1 / 2 := by
  have hm0 : determinant (minor_matrix diag3 0 0) = 4 := by
    rw [det_two (minor_matrix diag3 0 0) rfl rfl]
    have e00 : get_value (minor_matrix diag3 0 0) [0, 0] = 2 := rfl
    have e11 : get_value (minor_matrix diag3 0 0) [1, 1] = 2 := rfl
    have e10 : get_value (minor_matrix diag3 0 0) [1, 0] = 0 := rfl
    have e01 : get_value (minor_matrix diag3 0 0) [0, 1] = 0 := rfl
    rw [e00, e11, e10, e01]
    norm_num
  have hdet : determinant diag3 = 8 := by
    rw [det_expand diag3 3 rfl rfl (by decide), Finset.sum_range_succ, Finset.sum_range_succ,
      Finset.sum_range_succ, Finset.sum_range_zero]
    have g0 : get_value diag3 [0, 0] = 2 := rfl
    have g1 : get_value diag3 [1, 0] = 0 := rfl
    have g2 : get_value diag3 [2, 0] = 0 := rfl
    rw [g0, g1, g2, hm0]
    ring
  have hadj : get_value (adjugate_matrix diag3) [0, 0] = 4 := by
    rw [adjugate_matrix]
    obtain ⟨hcs, hcr, _⟩ := cofactor_matrix_spec diag3
    rw [transpose_get (cofactor_matrix diag3) 0 0 (by rw [hcs]; decide) (by rw [hcs]; decide),
      cofactor_matrix_get diag3 0 0 (by decide) (by decide), cofactor, minor, hm0]
    ring
  have hinv : inverse diag3 = adjugate_matrix diag3 := rfl
  refine ⟨?_, hdet, ?_⟩
  · rw [hinv, hadj]
  · rw [hadj, hdet]
    norm_num

/-- C2: `matmul` allocates its result with shape `[rhs.shape[1], lhs.shape[0]]`
(this part holds for all operand shapes), and whenever
`lhs.shape[0] = rhs.shape[1]` — the only case in which the C loops perform no
out-of-bounds buffer access — every entry `(r, c)` of the result equals
`Σ_k get_value rhs [k, r] * get_value lhs [c, k]`. -/
theorem C2_matmul_shape_and_entries (lhs rhs : Tensor) (m n p : Nat)
    (_hlr : lhs.rank = 2) (_hrr : rhs.rank = 2)
    (hl : lhs.shape = [m, n]) (hr : rhs.shape = [n, p]) :
    (matmul lhs rhs).shape = [p, m] ∧ (matmul lhs rhs).rank = 2 ∧
    (m = p → ∀ r c : Nat, r < p → c < m →
      get_value (matmul lhs rhs) [r, c] =
        ∑ k in Finset.range n, get_value rhs [k, r] * get_value lhs [c, k]) := by
  obtain ⟨hs, hrk, _⟩ := matmul_spec lhs rhs
  have hm : lhs.shape.getD 0 0 = m := by rw [hl]; rfl
  have hn : lhs.shape.getD 1 0 = n := by rw [hl]; rfl
  have hp : rhs.shape.getD 1 0 = p := by rw [hr]; rfl
  refine ⟨?_, hrk, ?_⟩
  · rw [hs, hp, hm]
  · intro hmp r c hrp hcm
    rw [matmul_get lhs rhs p (by omega) hp r c hrp (by omega),
      matmul_entry_eq_sum, hn]

/-- Witness for C2 at two concrete 2×2 matrices. -/
theorem C2_witness :
    (exA.rank = 2 ∧ exB.rank = 2 ∧ exA.shape = [2, 2] ∧ exB.shape = [2, 2]) ∧
    ((matmul exA exB).shape = [2, 2] ∧ (matmul exA exB).rank = 2 ∧
      (2 = 2 → ∀ r c : Nat, r < 2 → c < 2 →
        get_value (matmul exA exB) [r, c] =
          ∑ k in Finset.range 2, get_value exB [k, r] * get_value exA [c, k])) :=
  ⟨⟨rfl, rfl, rfl, rfl⟩, C2_matmul_shape_and_entries exA exB 2 2 2 rfl rfl rfl rfl⟩

/-- C10: under the library's conventions, multiplying an `n × n` matrix by
`create_indentity n` on either side reproduces the transpose of the matrix
entry for entry; on a concrete asymmetric matrix the product differs from
the matrix itself, so the identity acts as a transposition operator, not as
a multiplicative identity. -/
theorem C10_identity_acts_as_transpose (M : Tensor) (n : Nat)
    (_hrk : M.rank = 2) (hsh : M.shape = [n, n]) :
    (∀ a b : Nat, a < n → b < n →
        get_value (matmul M (create_indentity n)) [a, b] = get_value (transpose M) [a, b] ∧
        get_value (matmul (create_indentity n) M) [a, b] = get_value (transpose M) [a, b]) ∧
    get_value (matmul exA (create_indentity 2)) [0, 1] ≠ get_value exA [0, 1] := by
  constructor
  · intro a b ha hb
    have h00 : M.shape.getD 0 0 = n := by rw [hsh]; rfl
    have h10 : M.shape.getD 1 0 = n := by rw [hsh]; rfl
    obtain ⟨hIs, hIr, _⟩ := indentity_spec n
    have hI00 : (create_indentity n).shape.getD 0 0 = n := by rw [hIs]; rfl
    have hI10 : (create_indentity n).shape.getD 1 0 = n := by rw [hIs]; rfl
    have htr : get_value (transpose M) [a, b] = get_value M [b, a] :=
      transpose_get M a b (by omega) (by omega)
    constructor
    · rw [matmul_get M (create_indentity n) n h00 hI10 a b ha hb,
        matmul_entry_eq_sum, h10, htr]
      have hterm : ∀ k ∈ Finset.range n,
          get_value (create_indentity n) [k, a] * get_value M [b, k]
            = if k = a then get_value M [b, k] else 0 := by
        intro k hk
        rw [ident_get n k a (Finset.mem_range.mp hk) ha]
        split <;> simp
      rw [Finset.sum_congr rfl hterm,
        Finset.sum_ite_eq' (Finset.range n) a (fun k => get_value M [b, k]),
        if_pos (Finset.mem_range.mpr ha)]
    · rw [matmul_get (create_indentity n) M n hI00 h10 a b ha hb,
        matmul_entry_eq_sum, hI10, htr]
      have hterm : ∀ k ∈ Finset.range n,
          get_value M [k, a] * get_value (create_indentity n) [b, k]
            = if b = k then get_value M [k, a] else 0 := by
        intro k hk
        rw [ident_get n b k hb (Finset.mem_range.mp hk)]
        split <;> simp
      rw [Finset.sum_congr rfl hterm,
        Finset.sum_ite_eq (Finset.range n) b (fun k => get_value M [k, a]),
        if_pos (Finset.mem_range.mpr hb)]
  · have h1 : get_value (matmul exA (create_indentity 2)) [0, 1] = 3 := by
      rw [matmul_get exA (create_indentity 2) 2 rfl rfl 0 1 (by decide) (by decide),
        matmul_entry_eq_sum]
      have hn2 : exA.shape.getD 1 0 = 2 := rfl
      rw [hn2, Finset.sum_range_succ, Finset.sum_range_succ, Finset.sum_range_zero]
      have e1 : get_value (create_indentity 2) [0, 0] = 1 := rfl
      have e2 : get_value (create_indentity 2) [1, 0] = 0 := rfl
      have e3 : get_value exA [1, 0] = 3 := rfl
      have e4 : get_value exA [1, 1] = 4 := rfl
      rw [e1, e2, e3, e4]
      norm_num
    have h2 : get_value exA [0, 1] = 2 := rfl
    rw [h1, h2]
    norm_num

/-- Witness for C10 at the concrete asymmetric matrix `exA`. -/
theorem C10_witness :
    (exA.rank = 2 ∧ exA.shape = [2, 2]) ∧
    ((∀ a b : Nat, a < 2 → b < 2 →
        get_value (matmul exA (create_indentity 2)) [a, b]
          = get_value (transpose exA) [a, b] ∧
        get_value (matmul (create_indentity 2) exA) [a, b]
          = get_value (transpose exA) [a, b]) ∧
      get_value (matmul exA (create_indentity 2)) [0, 1] ≠ get_value exA [0, 1]) :=
  ⟨⟨rfl, rfl⟩, C10_identity_acts_as_transpose exA 2 rfl rfl⟩

/-- C7: every element-wise arithmetic operation (the four binary ones and
the four scalar variants) returns a freshly built tensor carrying the
operand's shape and rank, with a component buffer of exactly
`product(shape)` cells.  In this pure embedding the operands are values, so
their shape, rank and components are unchanged by construction, matching
the source loops, which write only into the freshly allocated buffer. -/
theorem C7_elementwise_frame (lhs rhs : Tensor) (s : ℚ)
    (hwf : lhs.rank = lhs.shape.length) (_hsh : rhs.shape = lhs.shape) :
    ((sum lhs rhs).shape = lhs.shape ∧ (sum lhs rhs).rank = lhs.rank ∧
      (sum lhs rhs).components.length = lhs.shape.prod) ∧
    ((subtract lhs rhs).shape = lhs.shape ∧ (subtract lhs rhs).rank = lhs.rank ∧
      (subtract lhs rhs).components.length = lhs.shape.prod) ∧
    ((divide lhs rhs).shape = lhs.shape ∧ (divide lhs rhs).rank = lhs.rank ∧
      (divide lhs rhs).components.length = lhs.shape.prod) ∧
    ((hadamard lhs rhs).shape = lhs.shape ∧ (hadamard lhs rhs).rank = lhs.rank ∧
      (hadamard lhs rhs).components.length = lhs.shape.prod) ∧
    ((sum_scalar lhs s).shape = lhs.shape ∧ (sum_scalar lhs s).rank = lhs.rank ∧
      (sum_scalar lhs s).components.length = lhs.shape.prod) ∧
    ((subtract_scalar lhs s).shape = lhs.shape ∧ (subtract_scalar lhs s).rank = lhs.rank ∧
      (subtract_scalar lhs s).components.length = lhs.shape.prod) ∧
    ((divide_scalar lhs s).shape = lhs.shape ∧ (divide_scalar lhs s).rank = lhs.rank ∧
      (divide_scalar lhs s).components.length = lhs.shape.prod) ∧
    ((product_scalar lhs s).shape = lhs.shape ∧ (product_scalar lhs s).rank = lhs.rank ∧
      (product_scalar lhs s).components.length = lhs.shape.prod) :=
  ⟨⟨elementwise_shape lhs hwf, rfl, elementwise_length lhs _ hwf⟩,
    ⟨elementwise_shape lhs hwf, rfl, elementwise_length lhs _ hwf⟩,
    ⟨elementwise_shape lhs hwf, rfl, elementwise_length lhs _ hwf⟩,
    ⟨elementwise_shape lhs hwf, rfl, elementwise_length lhs _ hwf⟩,
    ⟨elementwise_shape lhs hwf, rfl, elementwise_length lhs _ hwf⟩,
    ⟨elementwise_shape lhs hwf, rfl, elementwise_length lhs _ hwf⟩,
    ⟨elementwise_shape lhs hwf, rfl, elementwise_length lhs _ hwf⟩,
    ⟨elementwise_shape lhs hwf, rfl, elementwise_length lhs _ hwf⟩⟩

/-- Witness for C7 at two concrete same-shape 2×2 matrices. -/
theorem C7_witness :
    (exA.rank = exA.shape.length ∧ exB.shape = exA.shape) ∧
    ((sum exA exB).shape = exA.shape ∧ (sum exA exB).rank = exA.rank ∧
      (sum exA exB).components.length = exA.shape.prod) ∧
    ((product_scalar exA 5).shape = exA.shape ∧ (product_scalar exA 5).rank = exA.rank ∧
      (product_scalar exA 5).components.length = exA.shape.prod) :=
  ⟨⟨rfl, rfl⟩, (C7_elementwise_frame exA exB 5 rfl rfl).1,
    (C7_elementwise_frame exA exB 5 rfl rfl).2.2.2.2.2.2.2⟩

/-- C8: for length-3 operands, `cross` produces the component formulas of
the 3-D cross product, and `cross u v` is the element-wise negation of
`cross v u`. -/
theorem C8_cross_antisymmetry (u v : Tensor)
    (hu : u.shape.getD 0 0 = 3) (hv : v.shape.getD 0 0 = 3) :
    (cross u v).components = (cross v u).components.map (fun x => -x) ∧
    (cross u v).shape = [3] ∧
    (cross u v).components.getD 0 0 =
      u.components.getD 1 0 * v.components.getD 2 0 -
        u.components.getD 2 0 * v.components.getD 1 0 ∧
    (cross u v).components.getD 1 0 =
      u.components.getD 2 0 * v.components.getD 0 0 -
        u.components.getD 0 0 * v.components.getD 2 0 ∧
    (cross u v).components.getD 2 0 =
      u.components.getD 0 0 * v.components.getD 1 0 -
        u.components.getD 1 0 * v.components.getD 0 0 := by
  have hcuv : (cross u v).components =
      [u.components.getD 1 0 * v.components.getD 2 0 -
          u.components.getD 2 0 * v.components.getD 1 0,
        u.components.getD 2 0 * v.components.getD 0 0 -
          u.components.getD 0 0 * v.components.getD 2 0,
        u.components.getD 0 0 * v.components.getD 1 0 -
          u.components.getD 1 0 * v.components.getD 0 0] := by
    show (((create_vector (u.shape.getD 0 0)).components.set 0 _).set 1 _).set 2 _ = _
    rw [hu]
    rfl
  have hcvu : (cross v u).components =
      [v.components.getD 1 0 * u.components.getD 2 0 -
          v.components.getD 2 0 * u.components.getD 1 0,
        v.components.getD 2 0 * u.components.getD 0 0 -
          v.components.getD 0 0 * u.components.getD 2 0,
        v.components.getD 0 0 * u.components.getD 1 0 -
          v.components.getD 1 0 * u.components.getD 0 0] := by
    show (((create_vector (v.shape.getD 0 0)).components.set 0 _).set 1 _).set 2 _ = _
    rw [hv]
    rfl
  refine ⟨?_, ?_, ?_, ?_, ?_⟩
  · rw [hcuv, hcvu]
    simp only [List.map_cons, List.map_nil, List.cons.injEq, and_true]
    refine ⟨by ring, by ring, by ring⟩
  · show ([u.shape.getD 0 0] : List Nat) = [3]
    rw [hu]
  · rw [hcuv]
    rfl
  · rw [hcuv]
    rfl
  · rw [hcuv]
    rfl

/-- Witness for C8 at the concrete vectors (1,2,3) and (4,5,6). -/
theorem C8_witness :
    (exu.shape.getD 0 0 = 3 ∧ exv.shape.getD 0 0 = 3) ∧
    (cross exu exv).components = (cross exv exu).components.map (fun x => -x) :=
  ⟨⟨rfl, rfl⟩, (C8_cross_antisymmetry exu exv rfl rfl).1⟩

end LwTensor
